import Mathlib

/-!
Shallow embedding of the IceBox bot (bot.py, config.py).

Timestamps are modelled as natural numbers counting seconds; a Python
timedelta of d days is d * 86400 seconds.  SQLite rows become Lean
structures, a table becomes a list of rows, and each handler becomes a
state-passing function on the database state.  Python string truthiness
(None or the empty string are falsy) is modelled explicitly at each use
site.
-/

namespace IceBox

/-- Seconds in one day; used to translate timedelta(days=d). -/
def daySecs : Nat := 86400

/-- Translation of timedelta(days=d) to seconds. -/
def timedelta (days : Nat) : Nat := days * daySecs

/-- FREE_LIMIT from config.py. -/
def FREE_LIMIT : Nat := 50

/-- Row of the users table (bot.py init_db).  premium_until is nullable,
city is nullable; is_premium is the INTEGER 0/1 column as a Bool. -/
structure User where
  user_id : Nat
  freeze_mode : Nat
  is_premium : Bool
  premium_until : Option Nat
  ideas_count : Nat
  city : Option String
  created_at : Nat
deriving DecidableEq, Repr

/-- Row of the ideas table (bot.py init_db).  content, file_id, file_path
and weather are nullable. -/
structure Idea where
  id : Nat
  user_id : Nat
  content : Option String
  idea_type : String
  file_id : Option String
  file_path : Option String
  source : String
  frozen_until : Nat
  created_at : Nat
  opened_count : Nat
  is_valuable : Bool
  day_of_week : String
  time_of_day : String
  weather : Option String
deriving DecidableEq, Repr

/-- Staged duplicate candidate for plain text (temp_ideas table):
user_id, content, weather, timestamp. -/
structure TempIdea where
  user_id : Nat
  content : String
  weather : Option String
  timestamp : Nat
deriving DecidableEq, Repr

/-- Staged duplicate candidate for a voice note (temp_voice table). -/
structure TempVoice where
  user_id : Nat
  file_id : String
  content : String
  file_path : String
  weather : Option String
  timestamp : Nat
deriving DecidableEq, Repr

/-- Staged duplicate candidate for a photo (temp_photos table). -/
structure TempPhoto where
  user_id : Nat
  file_id : String
  caption : String
  weather : Option String
  timestamp : Nat
deriving DecidableEq, Repr

/-- Whole database state: the durable tables plus the transient staging
tables, and the AUTOINCREMENT counter for ideas.id. -/
structure DB where
  users : List User
  ideas : List Idea
  deleted_ideas : List (Nat × Nat)
  temp_ideas : List TempIdea
  temp_voice : List TempVoice
  temp_photos : List TempPhoto
  nextIdeaId : Nat
deriving DecidableEq, Repr

/-- Day-of-week snapshot now.strftime of the percent-A directive,
modelled as a pure function of the timestamp (the label text is
irrelevant to every claim). -/
def dowStr (t : Nat) : String := toString ((t / daySecs) % 7)

/-- Time-of-day snapshot now.strftime of the percent-H colon percent-M
directive, modelled as a pure function of the timestamp. -/
def todStr (t : Nat) : String := toString ((t % daySecs) / 60)

/-- Fresh users row created by get_user: freeze_mode defaults to 7,
is_premium to 0, ideas_count to 0, created_at to CURRENT_TIMESTAMP. -/
def defaultUser (uid now : Nat) : User :=
  ⟨uid, 7, false, none, 0, none, now⟩

/-- UPDATE users SET ... WHERE user_id = uid, as a map over the rows. -/
def dbUpdateUser (us : List User) (uid : Nat) (f : User → User) : List User :=
  us.map (fun u => if u.user_id = uid then f u else u)

/-- SELECT * FROM users WHERE user_id = uid (first row if any). -/
def findUser (us : List User) (uid : Nat) : Option User :=
  us.find? (fun u => u.user_id = uid)

/-- Translation of get_user (bot.py:97).  Get-or-create the user row,
then lazily clear an expired premium flag (strictly past expiry only),
persisting the change and re-reading the row before returning it. -/
def get_user (db : DB) (uid now : Nat) : User × DB :=
  let p : User × DB :=
    match findUser db.users uid with
    | some u => (u, db)
    | none =>
        let u := defaultUser uid now
        (u, { db with users := db.users ++ [u] })
  let u := p.1
  let db1 := p.2
  match u.is_premium, u.premium_until with
  | true, some t =>
      if t < now then
        let users2 := dbUpdateUser db1.users uid (fun v => { v with is_premium := false })
        let db2 := { db1 with users := users2 }
        match findUser users2 uid with
        | some v => (v, db2)
        | none => ({ u with is_premium := false }, db2)
      else (u, db1)
  | _, _ => (u, db1)

/-- Translation of save_idea (bot.py:123).  Reads the user (through
get_user), freezes the new idea for freeze_mode days from now, inserts
the row and increments the user's lifetime ideas_count. -/
def save_idea (db : DB) (uid : Nat) (content : Option String) (ty : String)
    (fid fpath : Option String) (src : String) (weather : Option String)
    (now : Nat) : DB :=
  let p := get_user db uid now
  let u := p.1
  let db1 := p.2
  let frozen := now + timedelta u.freeze_mode
  let idea : Idea :=
    ⟨db1.nextIdeaId, uid, content, ty, fid, fpath, src, frozen, now, 0, false,
      dowStr now, todStr now, weather⟩
  let db2 := { db1 with ideas := db1.ideas ++ [idea], nextIdeaId := db1.nextIdeaId + 1 }
  { db2 with users := dbUpdateUser db2.users uid (fun v => { v with ideas_count := v.ideas_count + 1 }) }

/-- Descending created_at order used by ORDER BY created_at DESC. -/
def descCreated (x y : Idea) : Prop := y.created_at ≤ x.created_at

instance : DecidableRel descCreated := fun x y => Nat.decLe y.created_at x.created_at

instance : IsTotal Idea descCreated :=
  ⟨fun x y => Nat.le_total y.created_at x.created_at⟩

instance : IsTrans Idea descCreated :=
  ⟨fun _ _ _ h1 h2 => Nat.le_trans h2 h1⟩

/-- Translation of get_thawed_ideas (bot.py:160): the user's ideas with
frozen_until at or before now, ordered newest-created-first. -/
def get_thawed_ideas (db : DB) (uid now : Nat) : List Idea :=
  List.insertionSort descCreated
    (db.ideas.filter (fun i => decide (i.user_id = uid) && decide (i.frozen_until ≤ now)))

/-- Translation of delete_idea / dump_delete (bot.py:845, bot.py:900):
appends one deletion-audit row and deletes the idea row.  The user's
ideas_count is not touched. -/
def delete_idea (db : DB) (uid ideaId now : Nat) : DB :=
  { db with deleted_ideas := db.deleted_ideas ++ [(uid, now)],
            ideas := db.ideas.filter (fun i => decide (i.id ≠ ideaId)) }

/-- Translation of get_idea_temperature (bot.py:223). -/
def get_idea_temperature (opened_count : Nat) : String :=
  if opened_count ≥ 3 then "🔥 Горячая"
  else if opened_count ≥ 1 then "🌡️ Тёплая"
  else "❄️ Холодная"

/-!
Embedding of difflib.SequenceMatcher as used by check_similarity
(bot.py:155): SequenceMatcher(None, new.lower(), old.lower()).ratio(),
that is isjunk=None and autojunk=True.  Sequences are lists of
characters; the b2j dictionary becomes a function from a character to
its (ascending) index list in b, with the autojunk purge of popular
characters applied when b has at least 200 elements.  Since isjunk is
None the junk set bjunk is empty, so the two junk-extension loops of
find_longest_match never fire and the two non-junk extension loops test
only the region bounds and character equality.  The ratio is computed in
the rationals; for the string lengths that can occur, the comparison of
the ratio with the literals used by the program agrees with the float
computation.
-/

/-- Index list of the occurrences of ch in b, ascending (the raw b2j
entry built by enumerate in the chain-b step). -/
def positions (b : List Char) (ch : Char) : List Nat :=
  (List.range b.length).filter (fun j => b.getD j default = ch)

/-- Autojunk test: with at least 200 elements, a character occurring
more than length / 100 + 1 times is popular and purged from b2j. -/
def isPopular (b : List Char) (ch : Char) : Bool :=
  decide (200 ≤ b.length) && decide (b.length / 100 + 1 < b.count ch)

/-- The b2j map after the autojunk purge (isjunk is None, so no junk
purge happens). -/
def b2jOf (b : List Char) (ch : Char) : List Nat :=
  if isPopular b ch then [] else positions b ch

/-- Column indices examined for one row of the inner loop: the b2j entry
restricted to blo ≤ j < bhi.  The b2j entry is ascending, so the
continue at j < blo and the break at j ≥ bhi amount to this filter. -/
def colsFor (b : List Char) (blo bhi : Nat) (ch : Char) : List Nat :=
  (b2jOf b ch).filter (fun j => decide (blo ≤ j) && decide (j < bhi))

/-- Running best match (besti, bestj, bestsize) of find_longest_match. -/
structure FLM where
  besti : Nat
  bestj : Nat
  bestsize : Nat
deriving DecidableEq, Repr

/-- One iteration of the inner j-loop of find_longest_match: reads the
previous row's chain lengths m, writes the new cell, and takes the new
chain as best when it is strictly longer.  Python evaluates i-k+1 and
j-k+1; k never exceeds i+1 or j+1, so the truncated subtraction agrees. -/
def colStep (m : Nat → Nat) (i : Nat) (st : (Nat → Nat) × FLM) (j : Nat) :
    (Nat → Nat) × FLM :=
  let k := (if j = 0 then 0 else m (j - 1)) + 1
  let upd : Nat → Nat := fun x => if x = j then k else st.1 x
  if st.2.bestsize < k then (upd, ⟨i + 1 - k, j + 1 - k, k⟩) else (upd, st.2)

/-- One row of the inner loop: newj2len starts empty and the columns of
b2j for a-row character are folded through colStep. -/
def rowStep (m : Nat → Nat) (i : Nat) (cols : List Nat) (best : FLM) :
    (Nat → Nat) × FLM :=
  cols.foldl (colStep m i) ((fun _ => 0), best)

/-- The i-loop of find_longest_match over the listed rows, threading the
j2len map and the best match. -/
def innerLoop (a b : List Char) (blo bhi : Nat) :
    List Nat → (Nat → Nat) → FLM → FLM
  | [], _, best => best
  | i :: rest, m, best =>
      let st := rowStep m i (colsFor b blo bhi (a.getD i default)) best
      innerLoop a b blo bhi rest st.1 st.2

/-- Backward extension loop: while besti > alo and bestj > blo and the
characters before the match agree, grow the match leftward.  Structural
recursion on besti, which strictly decreases. -/
def extBackGo (a b : List Char) (alo blo : Nat) :
    Nat → Nat → Nat → FLM
  | 0, bestj, bestsize => ⟨0, bestj, bestsize⟩
  | bi + 1, bestj, bestsize =>
      if alo < bi + 1 ∧ blo < bestj ∧ a.getD bi default = b.getD (bestj - 1) default then
        extBackGo a b alo blo bi (bestj - 1) (bestsize + 1)
      else ⟨bi + 1, bestj, bestsize⟩

/-- Forward extension loop, driven by the fuel ahi - (besti + bestsize),
which mirrors the loop guard besti + bestsize < ahi exactly: the fuel is
positive iff the guard holds, and both shrink by one per step. -/
def extFwdGo (a b : List Char) (bhi besti bestj : Nat) :
    Nat → Nat → FLM
  | 0, bestsize => ⟨besti, bestj, bestsize⟩
  | fuel + 1, bestsize =>
      if bestj + bestsize < bhi ∧ a.getD (besti + bestsize) default = b.getD (bestj + bestsize) default then
        extFwdGo a b bhi besti bestj fuel (bestsize + 1)
      else ⟨besti, bestj, bestsize⟩

/-- Translation of find_longest_match (isjunk=None): the chain-building
inner loop followed by the two non-junk extension loops. -/
def findLongestMatch (a b : List Char) (alo ahi blo bhi : Nat) : FLM :=
  let f0 := innerLoop a b blo bhi (List.range' alo (ahi - alo)) (fun _ => 0) ⟨alo, blo, 0⟩
  let f1 := extBackGo a b alo blo f0.besti f0.bestj f0.bestsize
  extFwdGo a b bhi f1.besti f1.bestj (ahi - (f1.besti + f1.bestsize)) f1.bestsize

/-- Total size of the matching blocks found by the get_matching_blocks
region recursion, with explicit fuel.  The region sum (ahi - alo) +
(bhi - blo) strictly decreases at each recursive call (the match is
nonempty), so the fuel supplied by matchTotal is always sufficient. -/
def matchTotalGo (a b : List Char) : Nat → Nat → Nat → Nat → Nat → Nat
  | 0, _, _, _, _ => 0
  | fuel + 1, alo, ahi, blo, bhi =>
      let f := findLongestMatch a b alo ahi blo bhi
      if f.bestsize = 0 then 0
      else
        matchTotalGo a b fuel alo f.besti blo f.bestj + f.bestsize +
          matchTotalGo a b fuel (f.besti + f.bestsize) ahi (f.bestj + f.bestsize) bhi

/-- Sum of the sizes of the matching blocks of the two sequences. -/
def matchTotal (a b : List Char) : Nat :=
  matchTotalGo a b (a.length + b.length) 0 a.length 0 b.length

/-- Translation of ratio: 2M / T as a rational, 1.0 for two empty
sequences (the calculate-ratio helper). -/
def ratioQ (a b : List Char) : ℚ :=
  if a.length + b.length = 0 then 1
  else (2 * matchTotal a b : ℚ) / (a.length + b.length : ℚ)

/-- The similarity used by check_similarity: the ratio of the two
lowercased contents. -/
def simRatio (x y : List Char) : ℚ :=
  ratioQ (x.map Char.toLower) (y.map Char.toLower)

/-- Result surface of the freeze preference handlers. -/
inductive FreezeOutcome where
  | needPremium
  | invalidNumber
  | outOfRange
  | setTo (days : Nat)
deriving DecidableEq, Repr

/-- UPDATE users SET freeze_mode = days WHERE user_id = uid. -/
def setFreezeMode (db : DB) (uid days : Nat) : DB :=
  { db with users := dbUpdateUser db.users uid (fun v => { v with freeze_mode := days }) }

/-- Translation of process_freeze (bot.py:746) for callback data
freeze_days with a numeric suffix.  Python short-circuits the premium
lookup: is_premium (hence get_user, with its lazy normalization) runs
only when days > 30. -/
def process_freeze (db : DB) (uid days now : Nat) : FreezeOutcome × DB :=
  if 30 < days then
    let p := get_user db uid now
    if p.1.is_premium then (FreezeOutcome.setTo days, setFreezeMode p.2 uid days)
    else (FreezeOutcome.needPremium, p.2)
  else (FreezeOutcome.setTo days, setFreezeMode db uid days)

/-- Whitespace test used by str.strip for the characters that occur in
chat messages. -/
def isSpaceChar (c : Char) : Bool :=
  decide (c = ' ') || decide (c = '\t') || decide (c = '\n') || decide (c = '\r')

/-- Effect of str.strip on a character list. -/
def stripChars (l : List Char) : List Char :=
  ((l.dropWhile isSpaceChar).reverse.dropWhile isSpaceChar).reverse

/-- Decimal digits to a number, None when empty or non-digit: the core
of int() on a plain digit string. -/
def digitsToNat (l : List Char) : Option Nat :=
  if l ≠ [] ∧ l.all Char.isDigit then
    some (l.foldl (fun n c => n * 10 + (c.toNat - 48)) 0)
  else none

/-- Translation of int(text.strip()) returning None where Python raises
ValueError: optional sign followed by decimal digits. -/
def pyIntOfString (s : String) : Option Int :=
  match stripChars s.toList with
  | '-' :: rest => (digitsToNat rest).map (fun n => -(n : Int))
  | '+' :: rest => (digitsToNat rest).map (fun n => (n : Int))
  | l => (digitsToNat l).map (fun n => (n : Int))

/-- Translation of process_custom_freeze (bot.py:726).  Parses the
message text as an integer, validates the 1..365 range, and stores the
preference.  There is no premium check on this path. -/
def process_custom_freeze (db : DB) (uid : Nat) (text : String) : FreezeOutcome × DB :=
  match pyIntOfString text with
  | none => (FreezeOutcome.invalidNumber, db)
  | some d =>
      if d < 1 ∨ 365 < d then (FreezeOutcome.outOfRange, db)
      else (FreezeOutcome.setTo d.toNat, setFreezeMode db uid d.toNat)

/-- SELECT id, content, created_at FROM ideas WHERE user_id = uid
ORDER BY created_at DESC LIMIT 50 (bot.py:148), as full rows. -/
def fetchRecent (db : DB) (uid : Nat) : List Idea :=
  (List.insertionSort descCreated (db.ideas.filter (fun i => decide (i.user_id = uid)))).take 50

/-- The condition under which the check_similarity loop returns a row:
both contents truthy (non-empty, non-NULL) and the lowercased ratio
strictly above 0.7. -/
def simCond (newContent : String) (i : Idea) : Bool :=
  match i.content with
  | some old =>
      decide (old ≠ "") && decide (newContent ≠ "") &&
        decide ((7 : ℚ)/10 < simRatio newContent.toList old.toList)
  | none => false

/-- The scanning loop of check_similarity (bot.py:153): the guard
old_content and new_content skips NULL or empty contents without
scoring them, and the first row whose ratio exceeds 0.7 is returned. -/
def scanSimilar (newContent : String) : List Idea → Option (Nat × String × Nat)
  | [] => none
  | i :: rest =>
      match i.content with
      | some old =>
          if old ≠ "" ∧ newContent ≠ "" then
            if (7 : ℚ)/10 < simRatio newContent.toList old.toList then
              some (i.id, old, i.created_at)
            else scanSimilar newContent rest
          else scanSimilar newContent rest
      | none => scanSimilar newContent rest

/-- Translation of check_similarity (bot.py:144). -/
def check_similarity (db : DB) (uid : Nat) (newContent : String) :
    Option (Nat × String × Nat) :=
  scanSimilar newContent (fetchRecent db uid)

/-- Outcome surface of the three note-creation handlers. -/
inductive SaveOutcome where
  | limitReached
  | duplicatePrompt (ideaId : Nat)
  | saved
deriving DecidableEq, Repr

/-- Translation of handle_text (bot.py:1463) on the plain-text path
(no pending FSM state, not a command or keyboard button).  The weather
lookup is an external call and enters as a parameter. -/
def handle_text (db : DB) (uid : Nat) (text : String) (weather : Option String)
    (now : Nat) : SaveOutcome × DB :=
  let p := get_user db uid now
  let u := p.1
  let db1 := p.2
  if u.is_premium = false ∧ FREE_LIMIT ≤ u.ideas_count then
    (SaveOutcome.limitReached, db1)
  else
    match check_similarity db1 uid text with
    | some (ideaId, _, _) =>
        (SaveOutcome.duplicatePrompt ideaId,
          { db1 with temp_ideas := db1.temp_ideas ++ [⟨uid, text, weather, now⟩] })
    | none =>
        (SaveOutcome.saved, save_idea db1 uid (some text) "text" none none "direct" weather now)

/-- Translation of handle_voice (bot.py:1091).  The downloaded file path,
the transcription result (None when unavailable or failed) and the
weather are external inputs.  Only premium users get a transcription and
hence a duplicate check. -/
def handle_voice (db : DB) (uid : Nat) (fileId filePath : String)
    (transcription : Option String) (weather : Option String) (now : Nat) :
    SaveOutcome × DB :=
  let p := get_user db uid now
  let u := p.1
  let db1 := p.2
  if u.is_premium = false ∧ FREE_LIMIT ≤ u.ideas_count then
    (SaveOutcome.limitReached, db1)
  else
    match (if u.is_premium then transcription else none) with
    | some t =>
        match check_similarity db1 uid t with
        | some (ideaId, _, _) =>
            (SaveOutcome.duplicatePrompt ideaId,
              { db1 with temp_voice := db1.temp_voice ++ [⟨uid, fileId, t, filePath, weather, now⟩] })
        | none =>
            (SaveOutcome.saved,
              save_idea db1 uid (some t) "voice" (some fileId) (some filePath) "direct" weather now)
    | none =>
        (SaveOutcome.saved,
          save_idea db1 uid (some "[Голосовая заметка]") "voice" (some fileId) (some filePath) "direct" weather now)

/-- Translation of handle_photo (bot.py:1175).  The caption defaults
when absent, and a duplicate check always runs on it. -/
def handle_photo (db : DB) (uid : Nat) (fileId : String)
    (caption : Option String) (weather : Option String) (now : Nat) :
    SaveOutcome × DB :=
  let p := get_user db uid now
  let u := p.1
  let db1 := p.2
  if u.is_premium = false ∧ FREE_LIMIT ≤ u.ideas_count then
    (SaveOutcome.limitReached, db1)
  else
    let cap := match caption with | some c => c | none => "[Фото без описания]"
    match check_similarity db1 uid cap with
    | some (ideaId, _, _) =>
        (SaveOutcome.duplicatePrompt ideaId,
          { db1 with temp_photos := db1.temp_photos ++ [⟨uid, fileId, cap, weather, now⟩] })
    | none =>
        (SaveOutcome.saved, save_idea db1 uid (some cap) "photo" (some fileId) none "direct" weather now)

/-!
Export formatter (export_to_markdown, bot.py:327).  The rows come from
two SELECTs of different widths, and the Python loop unpacks them as
(content, idea_type, created_at, *rest); the rest entries are
heterogeneous (an 0/1 integer or a text column), so they are modelled
with a small Python-value type carrying truthiness and the str()
rendering used by f-string interpolation.  The datetime.now() read in
the header is lifted to the nowStr parameter.
-/

/-- Python value as stored in a fetched row: integer, string or None. -/
inductive PyVal where
  | vint (n : Int)
  | vstr (s : String)
  | vnone
deriving DecidableEq, Repr

/-- Python truthiness of a row value. -/
def PyVal.truthy : PyVal → Bool
  | .vint n => decide (n ≠ 0)
  | .vstr s => decide (s ≠ "")
  | .vnone => false

/-- Rendering of a row value inside an f-string (str). -/
def PyVal.fstr : PyVal → String
  | .vint n => toString n
  | .vstr s => s
  | .vnone => "None"

/-- One fetched export row: content, idea_type, created_at and the
remaining columns in order. -/
structure ExportRow where
  content : PyVal
  idea_type : String
  created_at : String
  rest : List PyVal
deriving DecidableEq, Repr

/-- Reordering of an ISO timestamp string YYYY-MM-DD... into DD.MM.YYYY,
the effect of fromisoformat followed by strftime with the
percent-d.percent-m.percent-Y format on such input. -/
def formatDateDMY (iso : String) : String :=
  ((iso.drop 8).take 2) ++ "." ++ ((iso.drop 5).take 2) ++ "." ++ (iso.take 4)

/-- Document header of the export: title line, export timestamp line and
the first separator. -/
def exportHeader (title nowStr : String) : String :=
  "# " ++ title ++ "\n\n" ++ "*Экспортировано: " ++ nowStr ++ "*\n\n" ++ "---\n\n"

/-- One loop iteration of export_to_markdown: the section text appended
for a single row. -/
def exportSection (row : ExportRow) : String :=
  let is_valuable := row.rest.getD 0 (PyVal.vint 0)
  let dow := row.rest.getD 1 (PyVal.vstr "")
  let tod := row.rest.getD 2 (PyVal.vstr "")
  let date_str := formatDateDMY row.created_at
  let valuable_mark := if is_valuable.truthy then "⭐ " else ""
  let context := if dow.truthy then dow.fstr ++ ", " ++ tod.fstr else ""
  let head :=
    if row.idea_type = "voice" then "## " ++ valuable_mark ++ "[Голосовая заметка]\n"
    else "## " ++ valuable_mark ++ date_str ++ "\n"
  let ctxPart := if context ≠ "" then "*" ++ context ++ "*\n\n" else ""
  let bodyPart :=
    if row.content.truthy ∧ row.idea_type ≠ "voice" then row.content.fstr ++ "\n\n" else ""
  head ++ ctxPart ++ bodyPart ++ "---\n\n"

/-- Translation of export_to_markdown (bot.py:327): the md accumulator
starts as the header and each row appends its section. -/
def export_to_markdown (nowStr : String) (ideas : List ExportRow) (title : String) : String :=
  ideas.foldl (fun md row => md ++ exportSection row) (exportHeader title nowStr)

/-!
Search previews.  cmd_find (bot.py:1047) and process_search_query
(bot.py:1419) render the same kind of match preview but compute the
after-context from different slice bounds.  Python string slicing with
the in-range lower bound max(0, ...) and upper bound min(len, ...)
becomes take-then-drop on the character list.
-/

/-- Python slice s[a:b] for 0 ≤ a, b (clamped at the string length). -/
def pySlice (s : String) (a b : Nat) : String :=
  String.mk ((s.toList.take b).drop a)

/-- Python str.find: least index where needle occurs as a contiguous
substring, None here standing for -1. -/
def pyFind (hay needle : String) : Option Nat :=
  (List.range (hay.length + 1)).find? (fun i => needle.toList.isPrefixOf (hay.toList.drop i))

/-- Lowercase a string character by character, the effect of str.lower
on the contents involved. -/
def lowerStr (s : String) : String := String.mk (s.toList.map Char.toLower)

/-- Preview construction of cmd_find (bot.py:1051): note that the
after-context is sliced from content starting at
context_end - (pos + len(query)) rather than at pos + len(query). -/
def buildPreviewFind (content query : String) : String :=
  match pyFind (lowerStr content) (lowerStr query) with
  | some pos =>
      let context_start := pos - 40
      let context_end := min content.length (pos + query.length + 40)
      let before := pySlice content context_start pos
      let matched := pySlice content pos (pos + query.length)
      let after := pySlice content (context_end - (pos + query.length)) context_end
      let before := if 0 < context_start then "..." ++ before else before
      let after := if context_end < content.length then after ++ "..." else after
      before ++ "<b>" ++ matched ++ "</b>" ++ after
  | none =>
      pySlice content 0 80 ++ (if 80 < content.length then "..." else "")

/-- Preview construction of process_search_query (bot.py:1428), which
slices the after-context from pos + len(query) to context_end. -/
def buildPreviewSearch (content query : String) : String :=
  match pyFind (lowerStr content) (lowerStr query) with
  | some pos =>
      let context_start := pos - 40
      let context_end := min content.length (pos + query.length + 40)
      let before := pySlice content context_start pos
      let matched := pySlice content pos (pos + query.length)
      let after := pySlice content (pos + query.length) context_end
      let before := if 0 < context_start then "..." ++ before else before
      let after := if context_end < content.length then after ++ "..." else after
      before ++ "<b>" ++ matched ++ "</b>" ++ after
  | none =>
      pySlice content 0 80 ++ (if 80 < content.length then "..." else "")

/-- The note sections of an export, independent of the header: the same
append fold started from the empty document. -/
def noteSections (ideas : List ExportRow) : String :=
  ideas.foldl (fun md row => md ++ exportSection row) ""

/-- Database with the single user 1: non-premium, default 7-day freeze,
zero notes.  Used to exercise the freeze-preference handlers. -/
def dbOneFree : DB := ⟨[⟨1, 7, false, none, 0, none, 0⟩], [], [], [], [], [], 1⟩

/-- Database with the single user 1 whose freeze preference is the 999
indefinite sentinel. -/
def dbSentinel : DB := ⟨[⟨1, 999, true, none, 0, none, 0⟩], [], [], [], [], [], 1⟩

/-- Database for the C10 witness: user 1 is non-premium with the
lifetime counter already at 50 although only one note is stored. -/
def dbAtLimit : DB :=
  ⟨[⟨1, 7, false, none, 50, none, 0⟩],
    [⟨3, 1, some "kept", "text", none, none, "direct", 10, 5, 0, false, "0", "0", none⟩],
    [], [], [], [], 4⟩

/-- Database for the C5 witness: user 1 with two stored text notes. -/
def dbTwoNotes : DB :=
  ⟨[⟨1, 7, false, none, 2, none, 0⟩],
    [⟨1, 1, some "buy milk", "text", none, none, "direct", 600, 10, 0, false, "0", "0", none⟩,
      ⟨2, 1, some "hello", "text", none, none, "direct", 600, 20, 0, false, "0", "0", none⟩],
    [], [], [], [], 3⟩

/-- Length of the longest suffix-run of non-popular characters of l
ending at index j: the length of the chain that the inner loop of
find_longest_match builds on the diagonal when both sequences are l. -/
def runAt (l : List Char) : Nat → Nat
  | 0 => if isPopular l (l.getD 0 default) then 0 else 1
  | j + 1 => if isPopular l (l.getD (j + 1) default) then 0 else runAt l j + 1

/-- Bounds invariant of the running best match over the region
[alo, ahi) x [blo, bhi): the match lies inside the region whenever it
is nonempty, and an empty best is still the initial corner. -/
def BInv (alo ahi blo bhi : Nat) (f : FLM) : Prop :=
  alo ≤ f.besti ∧ blo ≤ f.bestj ∧
  (0 < f.bestsize → f.besti + f.bestsize ≤ ahi ∧ f.bestj + f.bestsize ≤ bhi) ∧
  (f.bestsize = 0 → f.besti = alo ∧ f.bestj = blo)

/-- Bounds invariant of the j2len map before processing row i: positive
chain lengths live inside the column range and are bounded by the
column offset and by the number of processed rows. -/
def JInv (alo blo bhi i : Nat) (m : Nat → Nat) : Prop :=
  ∀ j, 0 < m j → blo ≤ j ∧ j < bhi ∧ m j ≤ j + 1 - blo ∧ m j ≤ i - alo

/-- Diagonal invariant of the j2len map for the self-comparison on
the full region: every chain is bounded by the b-side run at its
column and by the a-side run at the last processed row, and the
diagonal chain is exactly that run. -/
def JDiag (l : List Char) (i : Nat) (m : Nat → Nat) : Prop :=
  (∀ j, m j ≤ runAt l j) ∧
  (∀ j, m j ≤ (if i = 0 then 0 else runAt l (i - 1))) ∧
  (0 < i → m (i - 1) = runAt l (i - 1))

/-- Diagonal invariant of the running best for the self-comparison:
the best is on the diagonal and dominates every processed run. -/
def BDiag (l : List Char) (i : Nat) (f : FLM) : Prop :=
  f.besti = f.bestj ∧ (∀ j, j < i → runAt l j ≤ f.bestsize)

/-!
Helper lemmas about the persistence layer.
-/

/-- Updating rows through dbUpdateUser with a field change that keeps
user_id moves find? to the updated row. -/
theorem findUser_dbUpdateUser (us : List User) (uid : Nat) (f : User → User)
    (hf : ∀ v, (f v).user_id = v.user_id) (u : User)
    (hfind : findUser us uid = some u) :
    findUser (dbUpdateUser us uid f) uid = some (f u) := by
  induction us with
  | nil => simp [findUser] at hfind
  | cons v vs ih =>
      by_cases hv : v.user_id = uid
      · have : findUser (v :: vs) uid = some v := by
          simp [findUser, List.find?_cons_of_pos, hv]
        rw [this] at hfind
        cases hfind
        simp [findUser, dbUpdateUser, List.find?_cons_of_pos, hv, hf]
      · have hstep : findUser (v :: vs) uid = findUser vs uid := by
          simp [findUser, List.find?_cons_of_neg, hv]
        rw [hstep] at hfind
        have := ih hfind
        simpa [findUser, dbUpdateUser, List.find?_cons_of_neg, hv] using this

/-- For a stored non-premium user, get_user returns the row unchanged
and leaves the state alone. -/
theorem get_user_found_nonpremium (db : DB) (uid now : Nat) (u : User)
    (hfind : findUser db.users uid = some u) (hprem : u.is_premium = false) :
    get_user db uid now = (u, db) := by
  unfold get_user
  rw [hfind]
  cases hpu : u.premium_until <;> simp [hprem, hpu]

/-!
Bounds invariants of find_longest_match: the returned block always lies
inside the requested region.  These feed both the matching-total bounds
(the ratio is in [0,1]) and the self-comparison result.
-/

/-- Generic preservation of an invariant along the column fold of one
row of the inner loop. -/
theorem foldl_colStep_pres (m : Nat → Nat) (i : Nat) (P : Nat → Prop)
    (Q : ((Nat → Nat) × FLM) → Prop)
    (hstep : ∀ st j, P j → Q st → Q (colStep m i st j)) :
    ∀ (S : List Nat) st, (∀ j ∈ S, P j) → Q st → Q (S.foldl (colStep m i) st) := by
  intro S
  induction S with
  | nil => intro st _ h; exact h
  | cons j S ih =>
      intro st hP hQ
      exact ih _ (fun x hx => hP x (List.mem_cons_of_mem _ hx))
        (hstep st j (hP j (List.mem_cons_self _ _)) hQ)

/-- Columns listed for a row lie inside the requested column range. -/
theorem colsFor_mem_range (b : List Char) (blo bhi : Nat) (ch : Char) (j : Nat)
    (hj : j ∈ colsFor b blo bhi ch) : blo ≤ j ∧ j < bhi := by
  unfold colsFor at hj
  have := (List.mem_filter.mp hj).2
  simpa using this

/-- One colStep keeps the j2len bound and the best-block bound. -/
theorem colStep_binv (alo ahi blo bhi i : Nat) (m : Nat → Nat)
    (hi : alo ≤ i) (hia : i < ahi) (hm : JInv alo blo bhi i m)
    (st : (Nat → Nat) × FLM) (j : Nat) (hj : blo ≤ j ∧ j < bhi)
    (hQ : JInv alo blo bhi (i + 1) st.1 ∧ BInv alo ahi blo bhi st.2) :
    JInv alo blo bhi (i + 1) (colStep m i st j).1 ∧
      BInv alo ahi blo bhi (colStep m i st j).2 := by
  obtain ⟨hj1, hj2⟩ := hj
  obtain ⟨hQ1, hQ2⟩ := hQ
  have hkj : (if j = 0 then 0 else m (j - 1)) + 1 ≤ j + 1 - blo := by
    by_cases h0 : j = 0
    · simp only [h0, if_pos]
      omega
    · simp only [if_neg h0]
      by_cases hmz : 0 < m (j - 1)
      · have := hm (j - 1) hmz
        omega
      · omega
  have hki : (if j = 0 then 0 else m (j - 1)) + 1 ≤ i + 1 - alo := by
    by_cases h0 : j = 0
    · simp only [h0, if_pos]
      omega
    · simp only [if_neg h0]
      by_cases hmz : 0 < m (j - 1)
      · have := hm (j - 1) hmz
        omega
      · omega
  unfold colStep
  constructor
  · by_cases hupd : st.2.bestsize < (if j = 0 then 0 else m (j - 1)) + 1 <;>
      · simp only [hupd, if_pos, if_neg, not_false_iff]
        intro x hx
        by_cases hxj : x = j
        · subst hxj
          simp only [if_pos rfl] at hx ⊢
          exact ⟨hj1, hj2, hkj, hki⟩
        · simp only [if_neg hxj] at hx ⊢
          exact hQ1 x hx
  · by_cases hupd : st.2.bestsize < (if j = 0 then 0 else m (j - 1)) + 1
    · simp only [hupd, if_pos]
      unfold BInv
      dsimp only
      refine ⟨by omega, by omega, ?_, by omega⟩
      intro _
      omega
    · simp only [hupd, if_neg, not_false_iff]
      exact hQ2

/-- One rowStep keeps the bounds invariants: the new j2len map is valid
for the next row and the best block stays inside the region. -/
theorem rowStep_binv (a b : List Char) (alo ahi blo bhi i : Nat) (m : Nat → Nat)
    (best : FLM) (hi : alo ≤ i) (hia : i < ahi)
    (hm : JInv alo blo bhi i m) (hb : BInv alo ahi blo bhi best) :
    JInv alo blo bhi (i + 1)
        (rowStep m i (colsFor b blo bhi (a.getD i default)) best).1 ∧
      BInv alo ahi blo bhi
        (rowStep m i (colsFor b blo bhi (a.getD i default)) best).2 := by
  unfold rowStep
  exact foldl_colStep_pres m i (fun j => blo ≤ j ∧ j < bhi)
    (fun st => JInv alo blo bhi (i + 1) st.1 ∧ BInv alo ahi blo bhi st.2)
    (fun st j hPj hQ => colStep_binv alo ahi blo bhi i m hi hia hm st j hPj hQ)
    (colsFor b blo bhi (a.getD i default)) ((fun _ => 0), best)
    (fun j hj => colsFor_mem_range b blo bhi _ j hj)
    ⟨fun j hj => absurd hj (by simp), hb⟩

/-- The whole inner loop keeps the best block inside the region. -/
theorem innerLoop_binv (a b : List Char) (alo ahi blo bhi : Nat) :
    ∀ (cnt i : Nat) (m : Nat → Nat) (best : FLM), alo ≤ i → i + cnt ≤ ahi →
      JInv alo blo bhi i m → BInv alo ahi blo bhi best →
      BInv alo ahi blo bhi (innerLoop a b blo bhi (List.range' i cnt) m best) := by
  intro cnt
  induction cnt with
  | zero =>
      intro i m best _ _ _ hb
      exact hb
  | succ cnt ih =>
      intro i m best hi hcnt hm hb
      have hr : List.range' i (cnt + 1) = i :: List.range' (i + 1) cnt := rfl
      rw [hr]
      have hstep := rowStep_binv a b alo ahi blo bhi i m best hi (by omega) hm hb
      exact ih (i + 1) _ _ (by omega) (by omega) hstep.1 hstep.2

/-- The backward extension keeps the best block inside the region. -/
theorem extBackGo_binv (a b : List Char) (alo ahi blo bhi : Nat) :
    ∀ (bi bj bs : Nat), BInv alo ahi blo bhi ⟨bi, bj, bs⟩ →
      BInv alo ahi blo bhi (extBackGo a b alo blo bi bj bs) := by
  intro bi
  induction bi with
  | zero =>
      intro bj bs h
      exact h
  | succ bi ih =>
      intro bj bs h
      unfold BInv at h
      dsimp only at h
      obtain ⟨h1, h2, h3, h4⟩ := h
      unfold extBackGo
      split_ifs with hg
      · obtain ⟨hg1, hg2, _⟩ := hg
        refine ih (bj - 1) (bs + 1) ?_
        unfold BInv
        dsimp only
        refine ⟨by omega, by omega, ?_, by omega⟩
        intro _
        by_cases hbs : 0 < bs
        · have := h3 hbs
          omega
        · have hbz : bs = 0 := by omega
          have := h4 hbz
          omega
      · exact ⟨h1, h2, h3, h4⟩

/-- The forward extension keeps the best block inside the region; the
fuel argument carries the distance ahi - (besti + bestsize). -/
theorem extFwdGo_binv (a b : List Char) (alo ahi blo bhi bi bj : Nat) :
    ∀ (fuel bs : Nat), bi + bs + fuel ≤ ahi →
      alo ≤ bi → blo ≤ bj → (0 < bs → bj + bs ≤ bhi) →
      (bs = 0 → bi = alo ∧ bj = blo) →
      BInv alo ahi blo bhi (extFwdGo a b bhi bi bj fuel bs) := by
  intro fuel
  induction fuel with
  | zero =>
      intro bs hfuel h1 h2 h3 h4
      show BInv alo ahi blo bhi ⟨bi, bj, bs⟩
      unfold BInv
      dsimp only
      exact ⟨h1, h2, fun hbs => ⟨by omega, h3 hbs⟩, fun hbs => h4 hbs⟩
  | succ fuel ih =>
      intro bs hfuel h1 h2 h3 h4
      unfold extFwdGo
      split_ifs with hg
      · exact ih (bs + 1) (by omega) h1 h2 (fun _ => by omega) (by omega)
      · show BInv alo ahi blo bhi ⟨bi, bj, bs⟩
        unfold BInv
        dsimp only
        exact ⟨h1, h2, fun hbs => ⟨by omega, h3 hbs⟩, fun hbs => h4 hbs⟩

/-- find_longest_match always returns a block inside its region. -/
theorem flm_binv (a b : List Char) (alo ahi blo bhi : Nat) :
    BInv alo ahi blo bhi (findLongestMatch a b alo ahi blo bhi) := by
  have hinit : BInv alo ahi blo bhi ⟨alo, blo, 0⟩ := by
    unfold BInv
    dsimp only
    exact ⟨le_refl _, le_refl _, by omega, fun _ => ⟨rfl, rfl⟩⟩
  have hJ : JInv alo blo bhi alo (fun _ => 0) := by
    intro j hj
    simp at hj
  set f0 := innerLoop a b blo bhi (List.range' alo (ahi - alo)) (fun _ => 0) ⟨alo, blo, 0⟩
    with hf0def
  set f1 := extBackGo a b alo blo f0.besti f0.bestj f0.bestsize with hf1def
  have hgoal : findLongestMatch a b alo ahi blo bhi
      = extFwdGo a b bhi f1.besti f1.bestj (ahi - (f1.besti + f1.bestsize)) f1.bestsize := rfl
  rw [hgoal]
  have hbf0 : BInv alo ahi blo bhi f0 := by
    rw [hf0def]
    by_cases halo : alo ≤ ahi
    · exact innerLoop_binv a b alo ahi blo bhi (ahi - alo) alo _ _ (le_refl _)
        (by omega) hJ hinit
    · have hz : ahi - alo = 0 := by omega
      rw [hz]
      exact hinit
  have hbf1 : BInv alo ahi blo bhi f1 := by
    rw [hf1def]
    cases hc : f0 with
    | mk bi bj bs =>
        have := hbf0
        rw [hc] at this
        exact extBackGo_binv a b alo ahi blo bhi bi bj bs this
  obtain ⟨g1, g2, g3, g4⟩ := hbf1
  by_cases hle : f1.besti + f1.bestsize ≤ ahi
  · exact extFwdGo_binv a b alo ahi blo bhi f1.besti f1.bestj _ f1.bestsize
      (by omega) g1 g2 (fun hbs => (g3 hbs).2) g4
  · have hz : ahi - (f1.besti + f1.bestsize) = 0 := by omega
    rw [hz]
    show BInv alo ahi blo bhi ⟨f1.besti, f1.bestj, f1.bestsize⟩
    unfold BInv
    dsimp only
    exact ⟨g1, g2, g3, g4⟩

/-- The matching total over a region is at most the a-side width. -/
theorem matchTotalGo_le_a (a b : List Char) :
    ∀ (fuel alo ahi blo bhi : Nat),
      matchTotalGo a b fuel alo ahi blo bhi ≤ ahi - alo := by
  intro fuel
  induction fuel with
  | zero =>
      intro alo ahi blo bhi
      simp [matchTotalGo]
  | succ fuel ih =>
      intro alo ahi blo bhi
      unfold matchTotalGo
      dsimp only
      split_ifs with hz
      · omega
      · have hB := flm_binv a b alo ahi blo bhi
        obtain ⟨h1, h2, h3, _⟩ := hB
        have hbs := h3 (by omega)
        have i1 := ih alo (findLongestMatch a b alo ahi blo bhi).besti blo
          (findLongestMatch a b alo ahi blo bhi).bestj
        have i2 := ih ((findLongestMatch a b alo ahi blo bhi).besti +
            (findLongestMatch a b alo ahi blo bhi).bestsize) ahi
          ((findLongestMatch a b alo ahi blo bhi).bestj +
            (findLongestMatch a b alo ahi blo bhi).bestsize) bhi
        omega

/-- The matching total over a region is at most the b-side width. -/
theorem matchTotalGo_le_b (a b : List Char) :
    ∀ (fuel alo ahi blo bhi : Nat),
      matchTotalGo a b fuel alo ahi blo bhi ≤ bhi - blo := by
  intro fuel
  induction fuel with
  | zero =>
      intro alo ahi blo bhi
      simp [matchTotalGo]
  | succ fuel ih =>
      intro alo ahi blo bhi
      unfold matchTotalGo
      dsimp only
      split_ifs with hz
      · omega
      · have hB := flm_binv a b alo ahi blo bhi
        obtain ⟨h1, h2, h3, _⟩ := hB
        have hbs := h3 (by omega)
        have i1 := ih alo (findLongestMatch a b alo ahi blo bhi).besti blo
          (findLongestMatch a b alo ahi blo bhi).bestj
        have i2 := ih ((findLongestMatch a b alo ahi blo bhi).besti +
            (findLongestMatch a b alo ahi blo bhi).bestsize) ahi
          ((findLongestMatch a b alo ahi blo bhi).bestj +
            (findLongestMatch a b alo ahi blo bhi).bestsize) bhi
        omega

/-- The matching total never exceeds either sequence length. -/
theorem matchTotal_le (a b : List Char) :
    matchTotal a b ≤ a.length ∧ matchTotal a b ≤ b.length := by
  unfold matchTotal
  constructor
  · have := matchTotalGo_le_a a b (a.length + b.length) 0 a.length 0 b.length
    omega
  · have := matchTotalGo_le_b a b (a.length + b.length) 0 a.length 0 b.length
    omega

/-- The ratio is between 0 and 1. -/
theorem ratioQ_bounds (a b : List Char) : 0 ≤ ratioQ a b ∧ ratioQ a b ≤ 1 := by
  unfold ratioQ
  split_ifs with hz
  · norm_num
  · constructor
    · apply div_nonneg
      · positivity
      · positivity
    · have hT : (0 : ℚ) < (a.length : ℚ) + (b.length : ℚ) := by
        have hp : 0 < a.length + b.length := Nat.pos_of_ne_zero hz
        exact_mod_cast hp
      rw [div_le_one hT]
      have hM := matchTotal_le a b
      have hn : 2 * matchTotal a b ≤ a.length + b.length := by omega
      exact_mod_cast hn

/-- The similarity used by the duplicate matcher is between 0 and 1. -/
theorem simRatio_bounds (x y : List Char) : 0 ≤ simRatio x y ∧ simRatio x y ≤ 1 :=
  ratioQ_bounds _ _

/-!
Self-comparison: on identical sequences the inner loop keeps its best
block on the diagonal, the extension loops then grow it to the whole
region, and the ratio is 1.
-/

/-- A popular character has run length 0 at its own index. -/
theorem runAt_popular (l : List Char) (i : Nat)
    (h : isPopular l (l.getD i default) = true) : runAt l i = 0 := by
  cases i <;> simp only [runAt, h] <;> rfl

/-- A non-popular character extends the run of the previous index. -/
theorem runAt_nonpopular (l : List Char) (i : Nat)
    (h : isPopular l (l.getD i default) = false) :
    runAt l i = (if i = 0 then 0 else runAt l (i - 1)) + 1 := by
  cases i <;> simp only [runAt, h] <;> rfl

/-- Characterization of the columns listed for the full self-region. -/
theorem mem_colsFor_self (l : List Char) (ch : Char) (j : Nat) :
    j ∈ colsFor l 0 l.length ch ↔
      j < l.length ∧ l.getD j default = ch ∧ isPopular l ch = false := by
  unfold colsFor b2jOf positions
  by_cases hpop : isPopular l ch
  · simp [hpop]
  · simp [hpop, List.mem_filter, List.mem_range]

/-- The column list of a row is strictly ascending. -/
theorem colsFor_pairwise (b : List Char) (blo bhi : Nat) (ch : Char) :
    (colsFor b blo bhi ch).Pairwise (· < ·) := by
  unfold colsFor b2jOf positions
  by_cases hpop : isPopular b ch
  · simp [hpop]
  · simp only [hpop, if_neg, Bool.not_eq_true]
    exact ((List.sorted_lt_range b.length).filter _).filter _

/-- An ascending list containing i splits into a part below i, the
element i, and a part above i. -/
theorem pairwise_split_at (S : List Nat) (hS : S.Pairwise (· < ·)) (i : Nat)
    (hi : i ∈ S) :
    ∃ A B, S = A ++ i :: B ∧ (∀ x ∈ A, x < i) ∧ (∀ x ∈ B, i < x) := by
  obtain ⟨A, B, rfl⟩ := List.append_of_mem hi
  rw [List.pairwise_append] at hS
  refine ⟨A, B, rfl, ?_, ?_⟩
  · exact fun x hx => hS.2.2 x hx i (List.mem_cons_self _ _)
  · exact fun x hx => (List.pairwise_cons.mp hS.2.1).1 x hx

/-- On the self-comparison, one row of the inner loop keeps the best
block on the diagonal: columns left of the diagonal are dominated by
already-processed runs, the diagonal column carries exactly the current
run, and columns right of the diagonal are dominated by the a-side run
that the diagonal column has just recorded. -/
theorem rowStep_diag (l : List Char) (i : Nat) (m : Nat → Nat) (best : FLM)
    (hi : i < l.length) (hJ : JDiag l i m) (hB : BDiag l i best) :
    JDiag l (i + 1) (rowStep m i (colsFor l 0 l.length (l.getD i default)) best).1 ∧
      BDiag l (i + 1) (rowStep m i (colsFor l 0 l.length (l.getD i default)) best).2 := by
  obtain ⟨hJ1, hJ2, hJ3⟩ := hJ
  obtain ⟨hB1, hB2⟩ := hB
  by_cases hpop : isPopular l (l.getD i default) = true
  · have hcols : colsFor l 0 l.length (l.getD i default) = [] := by
      unfold colsFor b2jOf
      rw [if_pos hpop]
      rfl
    rw [hcols]
    have hrun : runAt l i = 0 := runAt_popular l i hpop
    show JDiag l (i + 1) (fun _ => 0) ∧ BDiag l (i + 1) best
    refine ⟨⟨fun j => Nat.zero_le _, fun j => Nat.zero_le _, fun _ => ?_⟩, hB1, fun j hj => ?_⟩
    · show (0 : Nat) = runAt l (i + 1 - 1)
      rw [Nat.add_sub_cancel, hrun]
    · by_cases hji : j < i
      · exact hB2 j hji
      · have hjeq : j = i := by omega
        subst hjeq
        rw [hrun]
        exact Nat.zero_le _
  · have hpop' : isPopular l (l.getD i default) = false := by
      revert hpop
      cases isPopular l (l.getD i default) <;> simp
    have hiMem : i ∈ colsFor l 0 l.length (l.getD i default) :=
      (mem_colsFor_self l _ i).mpr ⟨hi, rfl, hpop'⟩
    obtain ⟨A, B, hAB, hAlt, hBgt⟩ :=
      pairwise_split_at _ (colsFor_pairwise l 0 l.length (l.getD i default)) i hiMem
    have hcolfact : ∀ j ∈ colsFor l 0 l.length (l.getD i default),
        runAt l j = (if j = 0 then 0 else runAt l (j - 1)) + 1 := by
      intro j hj
      obtain ⟨hj1, hj2, _⟩ := (mem_colsFor_self l _ j).mp hj
      apply runAt_nonpopular
      rw [hj2]
      exact hpop'
    have hrunI : runAt l i = (if i = 0 then 0 else runAt l (i - 1)) + 1 :=
      runAt_nonpopular l i hpop'
    have hkle : ∀ j : Nat, (if j = 0 then 0 else m (j - 1)) + 1 ≤ runAt l i := by
      intro j
      by_cases hj0 : j = 0
      · rw [if_pos hj0, hrunI]
        omega
      · rw [if_neg hj0, hrunI]
        have h2 := hJ2 (j - 1)
        by_cases hi0 : i = 0
        · rw [if_pos hi0] at h2 ⊢
          omega
        · rw [if_neg hi0] at h2 ⊢
          omega
    have hkleJ : ∀ j ∈ colsFor l 0 l.length (l.getD i default),
        (if j = 0 then 0 else m (j - 1)) + 1 ≤ runAt l j := by
      intro j hj
      rw [hcolfact j hj]
      by_cases hj0 : j = 0
      · simp [hj0]
      · rw [if_neg hj0, if_neg hj0]
        have := hJ1 (j - 1)
        omega
    have hkieq : (if i = 0 then 0 else m (i - 1)) + 1 = runAt l i := by
      rw [hrunI]
      by_cases hi0 : i = 0
      · rw [if_pos hi0, if_pos hi0]
      · rw [if_neg hi0, if_neg hi0, hJ3 (by omega)]
    have hsplit : rowStep m i (colsFor l 0 l.length (l.getD i default)) best
        = List.foldl (colStep m i)
            (colStep m i (List.foldl (colStep m i) ((fun _ => 0), best) A) i) B := by
      unfold rowStep
      rw [hAB, List.foldl_append, List.foldl_cons]
    rw [hsplit]
    have hstageA : ∀ st j, (j ∈ colsFor l 0 l.length (l.getD i default) ∧ j < i) →
        ((∀ x, st.1 x ≤ runAt l x ∧ st.1 x ≤ runAt l i) ∧ st.2 = best) →
        ((∀ x, (colStep m i st j).1 x ≤ runAt l x ∧ (colStep m i st j).1 x ≤ runAt l i) ∧
          (colStep m i st j).2 = best) := by
      intro st j hPj hQ
      obtain ⟨hjc, hji⟩ := hPj
      obtain ⟨hQ1, hQ2⟩ := hQ
      have hnolt : ¬ st.2.bestsize < (if j = 0 then 0 else m (j - 1)) + 1 := by
        have h1 := hkleJ j hjc
        have h2 := hB2 j hji
        rw [hQ2]
        omega
      unfold colStep
      rw [if_neg hnolt]
      refine ⟨?_, hQ2⟩
      intro x
      by_cases hxj : x = j
      · subst hxj
        simp only [if_pos rfl]
        exact ⟨hkleJ x hjc, hkle x⟩
      · simp only [if_neg hxj]
        exact hQ1 x
    have hA1 := foldl_colStep_pres m i
      (fun j => j ∈ colsFor l 0 l.length (l.getD i default) ∧ j < i)
      (fun st => (∀ x, st.1 x ≤ runAt l x ∧ st.1 x ≤ runAt l i) ∧ st.2 = best)
      hstageA A ((fun _ => 0), best)
      (fun j hj => ⟨by rw [hAB]; exact List.mem_append_left _ hj, hAlt j hj⟩)
      ⟨fun x => ⟨Nat.zero_le _, Nat.zero_le _⟩, rfl⟩
    set stA := List.foldl (colStep m i) ((fun _ => 0), best) A with hstA
    obtain ⟨hA2, hA3⟩ := hA1
    have hImid : (∀ x, (colStep m i stA i).1 x ≤ runAt l x ∧ (colStep m i stA i).1 x ≤ runAt l i) ∧
        (colStep m i stA i).1 i = runAt l i ∧
        (colStep m i stA i).2.besti = (colStep m i stA i).2.bestj ∧
        (∀ j, j ≤ i → runAt l j ≤ (colStep m i stA i).2.bestsize) := by
      unfold colStep
      rw [hA3]
      by_cases hlt : best.bestsize < (if i = 0 then 0 else m (i - 1)) + 1
      · rw [if_pos hlt]
        dsimp only
        refine ⟨?_, ?_, rfl, ?_⟩
        · intro x
          by_cases hxi : x = i
          · subst hxi
            simp only [if_pos rfl]
            rw [hkieq]
            exact ⟨le_refl _, le_refl _⟩
          · simp only [if_neg hxi]
            exact hA2 x
        · simp only [if_pos rfl]
          exact hkieq
        · intro j hj
          show runAt l j ≤ (if i = 0 then 0 else m (i - 1)) + 1
          rw [hkieq]
          by_cases hji : j < i
          · have h1 := hB2 j hji
            rw [hkieq] at hlt
            omega
          · have hje : j = i := by omega
            subst hje
            exact le_refl _
      · rw [if_neg hlt]
        dsimp only
        rw [hkieq] at hlt
        refine ⟨?_, ?_, hB1, ?_⟩
        · intro x
          by_cases hxi : x = i
          · subst hxi
            simp only [if_pos rfl]
            rw [hkieq]
            exact ⟨le_refl _, le_refl _⟩
          · simp only [if_neg hxi]
            exact hA2 x
        · simp only [if_pos rfl]
          exact hkieq
        · intro j hj
          by_cases hji : j < i
          · exact hB2 j hji
          · have hje : j = i := by omega
            subst hje
            omega
    have hstageB : ∀ st j, (j ∈ colsFor l 0 l.length (l.getD i default) ∧ i < j) →
        ((∀ x, st.1 x ≤ runAt l x ∧ st.1 x ≤ runAt l i) ∧ st.1 i = runAt l i ∧
          st.2.besti = st.2.bestj ∧ (∀ x, x ≤ i → runAt l x ≤ st.2.bestsize)) →
        ((∀ x, (colStep m i st j).1 x ≤ runAt l x ∧ (colStep m i st j).1 x ≤ runAt l i) ∧
          (colStep m i st j).1 i = runAt l i ∧
          (colStep m i st j).2.besti = (colStep m i st j).2.bestj ∧
          (∀ x, x ≤ i → runAt l x ≤ (colStep m i st j).2.bestsize)) := by
      intro st j hPj hQ
      obtain ⟨hjc, hji⟩ := hPj
      obtain ⟨hQ1, hQ2, hQ3, hQ4⟩ := hQ
      have hnolt : ¬ st.2.bestsize < (if j = 0 then 0 else m (j - 1)) + 1 := by
        have h1 := hkle j
        have h2 := hQ4 i (le_refl _)
        omega
      unfold colStep
      rw [if_neg hnolt]
      refine ⟨?_, ?_, hQ3, hQ4⟩
      · intro x
        by_cases hxj : x = j
        · subst hxj
          simp only [if_pos rfl]
          exact ⟨hkleJ x hjc, hkle x⟩
        · simp only [if_neg hxj]
          exact hQ1 x
      · have hij : ¬ i = j := by omega
        simp only [if_neg hij]
        exact hQ2
    have hBfin := foldl_colStep_pres m i
      (fun j => j ∈ colsFor l 0 l.length (l.getD i default) ∧ i < j)
      (fun st => (∀ x, st.1 x ≤ runAt l x ∧ st.1 x ≤ runAt l i) ∧ st.1 i = runAt l i ∧
        st.2.besti = st.2.bestj ∧ (∀ x, x ≤ i → runAt l x ≤ st.2.bestsize))
      hstageB B (colStep m i stA i)
      (fun j hj => ⟨by
          rw [hAB]
          exact List.mem_append_right _ (List.mem_cons_of_mem _ hj), hBgt j hj⟩)
      ⟨hImid.1, hImid.2.1, hImid.2.2.1, fun x hx => hImid.2.2.2 x hx⟩
    obtain ⟨hF1, hF2, hF3, hF4⟩ := hBfin
    refine ⟨⟨fun x => (hF1 x).1, fun x => ?_, fun _ => ?_⟩, hF3, fun j hj => ?_⟩
    · have hne : ¬ i + 1 = 0 := by omega
      rw [if_neg hne, Nat.add_sub_cancel]
      exact (hF1 x).2
    · rw [Nat.add_sub_cancel]
      exact hF2
    · exact hF4 j (by omega)

/-- On the self-comparison, the whole inner loop returns a best block
on the diagonal. -/
theorem innerLoop_diag (l : List Char) :
    ∀ (cnt i : Nat) (m : Nat → Nat) (best : FLM), i + cnt ≤ l.length →
      JDiag l i m → BDiag l i best →
      BDiag l (i + cnt) (innerLoop l l 0 l.length (List.range' i cnt) m best) := by
  intro cnt
  induction cnt with
  | zero =>
      intro i m best _ _ hb
      exact hb
  | succ cnt ih =>
      intro i m best hcnt hm hb
      have hr : List.range' i (cnt + 1) = i :: List.range' (i + 1) cnt := rfl
      rw [hr]
      show BDiag l (i + (cnt + 1))
        (innerLoop l l 0 l.length (List.range' (i + 1) cnt)
          (rowStep m i (colsFor l 0 l.length (l.getD i default)) best).1
          (rowStep m i (colsFor l 0 l.length (l.getD i default)) best).2)
      have hstep := rowStep_diag l i m best (by omega) hm hb
      have := ih (i + 1) _ _ (by omega) hstep.1 hstep.2
      have harith : i + 1 + cnt = i + (cnt + 1) := by omega
      rw [harith] at this
      exact this

/-- On the self-comparison, the backward extension from a diagonal
block slides all the way to the region start. -/
theorem extBackGo_self (l : List Char) :
    ∀ (d s : Nat), extBackGo l l 0 0 d d s = ⟨0, 0, s + d⟩ := by
  intro d
  induction d with
  | zero =>
      intro s
      rfl
  | succ d ih =>
      intro s
      unfold extBackGo
      have hg : 0 < d + 1 ∧ 0 < d + 1 ∧ l.getD d default = l.getD (d + 1 - 1) default := by
        refine ⟨by omega, by omega, ?_⟩
        rw [Nat.add_sub_cancel]
      rw [if_pos hg]
      rw [Nat.add_sub_cancel]
      rw [ih (s + 1)]
      have : s + 1 + d = s + (d + 1) := by omega
      rw [this]

/-- On the self-comparison, the forward extension from the region start
grows the block to the full region. -/
theorem extFwdGo_self (l : List Char) (n : Nat) :
    ∀ (fuel s : Nat), s + fuel ≤ n → extFwdGo l l n 0 0 fuel s = ⟨0, 0, s + fuel⟩ := by
  intro fuel
  induction fuel with
  | zero =>
      intro s _
      rfl
  | succ fuel ih =>
      intro s hs
      unfold extFwdGo
      have hg : 0 + s < n ∧ l.getD (0 + s) default = l.getD (0 + s) default := by
        exact ⟨by omega, rfl⟩
      rw [if_pos hg]
      rw [ih (s + 1) (by omega)]
      have : s + 1 + fuel = s + (fuel + 1) := by omega
      rw [this]

/-- find_longest_match on the full self-region returns the whole
diagonal. -/
theorem flm_self (l : List Char) :
    findLongestMatch l l 0 l.length 0 l.length = ⟨0, 0, l.length⟩ := by
  have hdiag : BDiag l (0 + l.length)
      (innerLoop l l 0 l.length (List.range' 0 l.length) (fun _ => 0) ⟨0, 0, 0⟩) := by
    apply innerLoop_diag l l.length 0 (fun _ => 0) ⟨0, 0, 0⟩ (by omega)
    · exact ⟨fun j => Nat.zero_le _, fun j => Nat.zero_le _, fun h => absurd h (by omega)⟩
    · exact ⟨rfl, fun j hj => absurd hj (by omega)⟩
  have hbnd : BInv 0 l.length 0 l.length
      (innerLoop l l 0 l.length (List.range' 0 l.length) (fun _ => 0) ⟨0, 0, 0⟩) := by
    have h0 : BInv 0 l.length 0 l.length ⟨0, 0, 0⟩ := by
      unfold BInv
      dsimp only
      exact ⟨le_refl _, le_refl _, by omega, fun _ => ⟨rfl, rfl⟩⟩
    have hJ : JInv 0 0 l.length 0 (fun _ => 0) := fun j hj => absurd hj (by simp)
    have := innerLoop_binv l l 0 l.length 0 l.length l.length 0 (fun _ => 0) ⟨0, 0, 0⟩
      (by omega) (by omega) hJ h0
    simpa using this
  set f0 := innerLoop l l 0 l.length (List.range' 0 l.length) (fun _ => 0) ⟨0, 0, 0⟩ with hf0
  have hgoal : findLongestMatch l l 0 l.length 0 l.length
      = extFwdGo l l l.length
          (extBackGo l l 0 0 f0.besti f0.bestj f0.bestsize).besti
          (extBackGo l l 0 0 f0.besti f0.bestj f0.bestsize).bestj
          (l.length - ((extBackGo l l 0 0 f0.besti f0.bestj f0.bestsize).besti +
            (extBackGo l l 0 0 f0.besti f0.bestj f0.bestsize).bestsize))
          (extBackGo l l 0 0 f0.besti f0.bestj f0.bestsize).bestsize := by
    rfl
  have hdd : f0.bestj = f0.besti := by
    have := hdiag.1
    omega
  have hback : extBackGo l l 0 0 f0.besti f0.bestj f0.bestsize
      = ⟨0, 0, f0.bestsize + f0.besti⟩ := by
    rw [hdd]
    exact extBackGo_self l f0.besti f0.bestsize
  have hsum : f0.bestsize + f0.besti ≤ l.length := by
    obtain ⟨g1, g2, g3, g4⟩ := hbnd
    by_cases hz : 0 < f0.bestsize
    · have := g3 hz
      omega
    · have hz0 : f0.bestsize = 0 := by omega
      have := g4 hz0
      omega
  rw [hgoal, hback]
  show extFwdGo l l l.length 0 0 (l.length - (0 + (f0.bestsize + f0.besti)))
      (f0.bestsize + f0.besti) = ⟨0, 0, l.length⟩
  rw [extFwdGo_self l l.length (l.length - (0 + (f0.bestsize + f0.besti)))
    (f0.bestsize + f0.besti) (by omega)]
  have : f0.bestsize + f0.besti + (l.length - (0 + (f0.bestsize + f0.besti))) = l.length := by
    omega
  rw [this]

/-- The matching total between a list and itself is its full length. -/
theorem matchTotal_self (l : List Char) : matchTotal l l = l.length := by
  have hleft : ∀ fuel, matchTotalGo l l fuel 0 0 0 0 = 0 := by
    intro fuel
    cases fuel with
    | zero => rfl
    | succ fuel =>
        unfold matchTotalGo
        dsimp only
        have hf : findLongestMatch l l 0 0 0 0 = ⟨0, 0, 0⟩ := rfl
        rw [hf]
        rfl
  have hright : ∀ fuel j, matchTotalGo l l fuel j j j j = 0 := by
    intro fuel j
    cases fuel with
    | zero => rfl
    | succ fuel =>
        unfold matchTotalGo
        dsimp only
        have hb : extBackGo l l j j j j 0 = ⟨j, j, 0⟩ := by
          cases j with
          | zero => rfl
          | succ j2 =>
              unfold extBackGo
              have hng : ¬ (j2 + 1 < j2 + 1 ∧ j2 + 1 < j2 + 1 ∧
                  l.getD j2 default = l.getD (j2 + 1 - 1) default) := by
                omega
              rw [if_neg hng]
        have hf : findLongestMatch l l j j j j = ⟨j, j, 0⟩ := by
          unfold findLongestMatch
          have hr0 : j - j = 0 := by omega
          rw [hr0]
          show extFwdGo l l j
              (extBackGo l l j j j j 0).besti (extBackGo l l j j j j 0).bestj
              (j - ((extBackGo l l j j j j 0).besti + (extBackGo l l j j j j 0).bestsize))
              (extBackGo l l j j j j 0).bestsize = ⟨j, j, 0⟩
          rw [hb]
          dsimp only
          have hz : j - (j + 0) = 0 := by omega
          rw [hz]
          rfl
        rw [hf]
        rfl
  unfold matchTotal
  by_cases h0 : l.length = 0
  · rw [h0]
    exact hleft 0
  · obtain ⟨k, hk⟩ : ∃ k, l.length + l.length = k + 1 := ⟨l.length + l.length - 1, by omega⟩
    rw [hk]
    unfold matchTotalGo
    dsimp only
    rw [flm_self l]
    have hne : ¬ (FLM.mk 0 0 l.length).bestsize = 0 := by
      dsimp only
      omega
    rw [if_neg hne]
    dsimp only
    rw [hleft]
    simp only [Nat.zero_add]
    rw [hright]
    omega

/-- The ratio of a nonempty list with itself is exactly 1. -/
theorem ratioQ_self (l : List Char) (hl : l ≠ []) : ratioQ l l = 1 := by
  unfold ratioQ
  have hn : 0 < l.length := List.length_pos.mpr hl
  have hz : ¬ l.length + l.length = 0 := by omega
  rw [if_neg hz, matchTotal_self]
  have hQ : ((l.length : ℚ)) + ((l.length : ℚ)) = 2 * (l.length : ℚ) := by ring
  rw [hQ]
  apply div_self
  have : (0 : ℚ) < 2 * (l.length : ℚ) := by
    have : (0 : ℚ) < (l.length : ℚ) := by exact_mod_cast hn
    linarith
  exact ne_of_gt this

/-!
Claim theorems.
-/

/-- C9: the temperature classification is a pure function of the
open-count with 0 cold, 1-2 warm, and 3 or more hot; in particular
Temperature(0)=cold, Temperature(1)=Temperature(2)=warm,
Temperature(3)=Temperature(100)=hot. -/
theorem C9_temperature_tiers :
    (∀ n : Nat,
      (3 ≤ n → get_idea_temperature n = "🔥 Горячая") ∧
      (1 ≤ n ∧ n ≤ 2 → get_idea_temperature n = "🌡️ Тёплая") ∧
      (n = 0 → get_idea_temperature n = "❄️ Холодная")) ∧
    get_idea_temperature 0 = "❄️ Холодная" ∧
    get_idea_temperature 1 = "🌡️ Тёплая" ∧
    get_idea_temperature 2 = "🌡️ Тёплая" ∧
    get_idea_temperature 3 = "🔥 Горячая" ∧
    get_idea_temperature 100 = "🔥 Горячая" := by
  refine ⟨?_, by decide, by decide, by decide, by decide, by decide⟩
  intro n
  refine ⟨?_, ?_, ?_⟩ <;> intro h <;> unfold get_idea_temperature <;>
    split_ifs <;> first | rfl | omega

/-- Witness for C9: the hot tier fires at the concrete open-count 5. -/
theorem C9_temperature_tiers_witness :
    3 ≤ 5 ∧ get_idea_temperature 5 = "🔥 Горячая" :=
  ⟨by decide, (C9_temperature_tiers.1 5).1 (by decide)⟩

/-- C1 (code_bug evidence): for a stored non-premium user, the preset
handler rejects 90 days and the 999 sentinel leaving the state
unchanged, but the custom-days handler accepts 45 (and 180) and stores
it with no premium check, contradicting the claim that every >30-day
selection is rejected. -/
theorem C1_custom_freeze_not_gated :
    process_freeze dbOneFree 1 90 5 = (FreezeOutcome.needPremium, dbOneFree) ∧
    process_freeze dbOneFree 1 999 5 = (FreezeOutcome.needPremium, dbOneFree) ∧
    process_custom_freeze dbOneFree 1 "45"
      = (FreezeOutcome.setTo 45, ⟨[⟨1, 45, false, none, 0, none, 0⟩], [], [], [], [], [], 1⟩) ∧
    process_custom_freeze dbOneFree 1 "180"
      = (FreezeOutcome.setTo 180, ⟨[⟨1, 180, false, none, 0, none, 0⟩], [], [], [], [], [], 1⟩) := by
  refine ⟨by decide, by decide, by decide, by decide⟩

/-- C2 (code_bug evidence): a note created at time 0 by a user with the
indefinite sentinel gets freeze-expiry exactly 999 days after creation,
which is far short of the circa 100 years (36500 days, the span the
same program uses for its lifetime premium plan) that the claim
requires. -/
theorem C2_sentinel_is_999_days :
    ((save_idea dbSentinel 1 (some "idea") "text" none none "direct" none 0).ideas.map
      (fun i => (i.created_at, i.frozen_until))) = [(0, timedelta 999)] ∧
    timedelta 999 = 999 * 86400 ∧
    timedelta 999 < timedelta 36500 := by
  refine ⟨by decide, by decide, by decide⟩

/-- C3: a note is in the thawed list exactly when it belongs to the user
and its freeze-expiry is at or before the current instant (hence at
now = frozen_until it is listed and at any earlier instant it is not),
and the list is ordered newest-created-first. -/
theorem C3_thaw_boundary_and_order (db : DB) (uid now : Nat) :
    (∀ i : Idea,
      i ∈ get_thawed_ideas db uid now ↔
        i ∈ db.ideas ∧ i.user_id = uid ∧ i.frozen_until ≤ now) ∧
    List.Sorted descCreated (get_thawed_ideas db uid now) := by
  constructor
  · intro i
    unfold get_thawed_ideas
    rw [List.mem_insertionSort, List.mem_filter]
    simp [and_assoc]
  · exact List.sorted_insertionSort _ _

/-- C6: the get-or-create read never returns a record whose premium flag
is set while its premium-expiry lies strictly in the past, and the
returned record is exactly what is stored for that user afterwards. -/
theorem C6_premium_lazily_cleared (db : DB) (uid now : Nat) :
    ((get_user db uid now).1.is_premium = true →
      ∀ t, (get_user db uid now).1.premium_until = some t → now ≤ t) ∧
    findUser (get_user db uid now).2.users uid = some (get_user db uid now).1 := by
  unfold get_user
  cases hfind : findUser db.users uid with
  | none =>
      simp only [hfind]
      constructor
      · intro hp
        simp [defaultUser] at hp
      · have : findUser (db.users ++ [defaultUser uid now]) uid = some (defaultUser uid now) := by
          unfold findUser at hfind ⊢
          rw [List.find?_append, hfind]
          simp [defaultUser]
        simpa [defaultUser] using this
  | some u =>
      simp only [hfind]
      cases hp : u.is_premium with
      | false =>
          cases hpu : u.premium_until <;> simp [hp, hpu, hfind]
      | true =>
          cases hpu : u.premium_until with
          | none => simp [hp, hpu, hfind]
          | some t =>
              by_cases hlt : t < now
              · have hupd := findUser_dbUpdateUser db.users uid
                  (fun v => { v with is_premium := false }) (fun _ => rfl) u hfind
                simp only [hp, hpu, if_pos hlt, hupd]
                constructor
                · intro hcontra
                  simp at hcontra
                · trivial
              · simp only [hp, hpu, if_neg hlt]
                constructor
                · intro _ t2 ht2
                  cases ht2
                  omega
                · exact hfind

/-- Witness for C6: on a stored user whose premium runs to time 100,
a read at time 10 keeps the flag and the expiry is not in the past. -/
theorem C6_premium_lazily_cleared_witness :
    (get_user ⟨[⟨1, 7, true, some 100, 0, none, 0⟩], [], [], [], [], [], 1⟩ 1 10).1.is_premium = true ∧
    (get_user ⟨[⟨1, 7, true, some 100, 0, none, 0⟩], [], [], [], [], [], 1⟩ 1 10).1.premium_until = some 100 ∧
    10 ≤ 100 :=
  ⟨by decide, by decide,
    (C6_premium_lazily_cleared ⟨[⟨1, 7, true, some 100, 0, none, 0⟩], [], [], [], [], [], 1⟩ 1 10).1
      (by decide) 100 (by decide)⟩

/-- Appending sections by foldl factors through the seed string. -/
theorem foldl_sections_factor (ideas : List ExportRow) (s : String) :
    ideas.foldl (fun md row => md ++ exportSection row) s = s ++ noteSections ideas := by
  induction ideas generalizing s with
  | nil => simp [noteSections, String.append_empty]
  | cons x xs ih =>
      simp only [noteSections, List.foldl] at ih ⊢
      rw [ih (s ++ exportSection x), ih ("" ++ exportSection x),
        String.empty_append, String.append_assoc]

/-- C7: the export output is the document header followed by a body
that is a pure function of the note list alone, so two renderings of
the same notes differ at most in the header timestamp and the note
sections are byte-identical; with no notes the output is exactly the
header with its title and timestamp and no sections. -/
theorem C7_export_pure (now1 now2 title : String) (ideas : List ExportRow) :
    (∃ body,
      export_to_markdown now1 ideas title = exportHeader title now1 ++ body ∧
      export_to_markdown now2 ideas title = exportHeader title now2 ++ body) ∧
    export_to_markdown now1 [] title = exportHeader title now1 := by
  refine ⟨⟨noteSections ideas, ?_, ?_⟩, ?_⟩
  · exact foldl_sections_factor ideas (exportHeader title now1)
  · exact foldl_sections_factor ideas (exportHeader title now2)
  · rfl

/-- C8 (code_bug evidence): on content 0123456789 with query 23, the
find-command preview drops the two characters 45 that immediately
follow the match (its after-context starts at the wrong index), while
the twin search handler renders the correct context window. -/
theorem C8_find_preview_wrong_window :
    buildPreviewFind "0123456789" "23" = "01<b>23</b>6789" ∧
    buildPreviewSearch "0123456789" "23" = "01<b>23</b>456789" ∧
    ("01<b>23</b>6789" : String) ≠ "01<b>23</b>456789" := by
  refine ⟨by decide, by decide, by decide⟩

/-- C10: for a stored non-premium user whose lifetime counter has
reached FREE_LIMIT, each of the three note-creation handlers refuses
and leaves the state untouched; deleting a note never changes the users
table (so the lifetime counter stays put) and creation remains refused
after any deletion. -/
theorem C10_free_limit_lifetime (db : DB) (uid : Nat) (u : User)
    (hfind : findUser db.users uid = some u)
    (hprem : u.is_premium = false)
    (hcount : FREE_LIMIT ≤ u.ideas_count) :
    (∀ text weather now,
      handle_text db uid text weather now = (SaveOutcome.limitReached, db)) ∧
    (∀ fid fpath tr weather now,
      handle_voice db uid fid fpath tr weather now = (SaveOutcome.limitReached, db)) ∧
    (∀ fid cap weather now,
      handle_photo db uid fid cap weather now = (SaveOutcome.limitReached, db)) ∧
    (∀ uid2 iid now2, (delete_idea db uid2 iid now2).users = db.users) ∧
    (∀ uid2 iid now2 text weather now,
      handle_text (delete_idea db uid2 iid now2) uid text weather now
        = (SaveOutcome.limitReached, delete_idea db uid2 iid now2)) := by
  have hget : ∀ now, get_user db uid now = (u, db) := fun now =>
    get_user_found_nonpremium db uid now u hfind hprem
  have hgetd : ∀ uid2 iid now2 now,
      get_user (delete_idea db uid2 iid now2) uid now = (u, delete_idea db uid2 iid now2) :=
    fun uid2 iid now2 now =>
      get_user_found_nonpremium (delete_idea db uid2 iid now2) uid now u hfind hprem
  refine ⟨?_, ?_, ?_, ?_, ?_⟩
  · intro text weather now
    unfold handle_text
    rw [hget now]
    simp [hprem, hcount]
  · intro fid fpath tr weather now
    unfold handle_voice
    rw [hget now]
    simp [hprem, hcount]
  · intro fid cap weather now
    unfold handle_photo
    rw [hget now]
    simp [hprem, hcount]
  · intro uid2 iid now2
    rfl
  · intro uid2 iid now2 text weather now
    unfold handle_text
    rw [hgetd uid2 iid now2 now]
    simp [hprem, hcount]

/-- C4 counterexample: the similarity is not symmetric; the argument
order changes the ratio on the concrete pair tide and diet (1/4 one
way, 1/2 the other). -/
theorem C4_sim_not_symmetric :
    simRatio "tide".toList "diet".toList = 1/4 ∧
    simRatio "diet".toList "tide".toList = 1/2 ∧
    ¬ simRatio "tide".toList "diet".toList = simRatio "diet".toList "tide".toList := by
  have h1 : matchTotal ("tide".toList.map Char.toLower) ("diet".toList.map Char.toLower) = 1 := by
    decide
  have h2 : matchTotal ("diet".toList.map Char.toLower) ("tide".toList.map Char.toLower) = 2 := by
    decide
  have l1 : ("tide".toList.map Char.toLower).length = 4 := by decide
  have l2 : ("diet".toList.map Char.toLower).length = 4 := by decide
  refine ⟨?_, ?_, ?_⟩ <;> simp only [simRatio, ratioQ, h1, h2, l1, l2] <;> norm_num

/-- C4 (amended): the similarity of any non-empty string with itself is
exactly 1; symmetry, in contrast, fails in general. -/
theorem C4_sim_self_eq_one (A : List Char) (hA : A ≠ []) : simRatio A A = 1 := by
  unfold simRatio
  apply ratioQ_self
  simpa using hA

/-- Witness for C4: the identity at the concrete string ab. -/
theorem C4_sim_self_eq_one_witness :
    "ab".toList ≠ ([] : List Char) ∧ simRatio "ab".toList "ab".toList = 1 :=
  ⟨by decide, C4_sim_self_eq_one "ab".toList (by decide)⟩

/-- The scanning loop of check_similarity is the first-match search for
the similarity condition, projected to (id, content, created_at). -/
theorem scanSimilar_eq_find (newContent : String) :
    ∀ rows : List Idea, scanSimilar newContent rows
      = (rows.find? (simCond newContent)).map
          (fun i => (i.id, i.content.getD "", i.created_at)) := by
  intro rows
  induction rows with
  | nil => rfl
  | cons i rest ih =>
      cases hc : i.content with
      | none =>
          have hcond : simCond newContent i = false := by simp [simCond, hc]
          simp [scanSimilar, hc, hcond, ih]
      | some old =>
          by_cases h1 : old ≠ "" ∧ newContent ≠ ""
          · by_cases h2 : (7 : ℚ)/10 < simRatio newContent.data old.data
            · have hcond : simCond newContent i = true := by
                simp [simCond, hc, h1.1, h1.2, h2]
              simp [scanSimilar, hc, h1, h2, hcond]
            · have hcond : simCond newContent i = false := by
                simp [simCond, hc, h2]
              simp [scanSimilar, hc, h1, h2, hcond, ih]
          · have hcond : simCond newContent i = false := by
              rw [Classical.not_and_iff_or_not_not] at h1
              rcases h1 with h1 | h1 <;> push_neg at h1 <;> simp [simCond, hc, h1]
            have h1' : ¬ (old ≠ "" ∧ newContent ≠ "") := by
              rw [Classical.not_and_iff_or_not_not] at h1 ⊢
              exact h1
            simp [scanSimilar, hc, h1', hcond, ih]

/-- C5: the duplicate check looks at no more than 50 notes, all of them
the requesting user's stored notes, scanned newest-first; any user note
left out of the window is no newer than every note inside it; the
result is the first note of the window whose content is non-empty, with
a non-empty query, and whose lowercased ratio strictly exceeds 0.7
(empty or absent contents are skipped, never scored); and the ratio
always lies in [0, 1]. -/
theorem C5_duplicate_scan (db : DB) (uid : Nat) (newContent : String) :
    (fetchRecent db uid).length ≤ 50 ∧
    (∀ i ∈ fetchRecent db uid, i.user_id = uid ∧ i ∈ db.ideas) ∧
    List.Sorted descCreated (fetchRecent db uid) ∧
    (∀ y ∈ db.ideas, y.user_id = uid → y ∉ fetchRecent db uid →
      ∀ x ∈ fetchRecent db uid, y.created_at ≤ x.created_at) ∧
    check_similarity db uid newContent
      = ((fetchRecent db uid).find? (simCond newContent)).map
          (fun i => (i.id, i.content.getD "", i.created_at)) ∧
    (∀ x y : List Char, 0 ≤ simRatio x y ∧ simRatio x y ≤ 1) := by
  refine ⟨?_, ?_, ?_, ?_, ?_, fun x y => simRatio_bounds x y⟩
  · exact List.length_take_le _ _
  · intro i hi
    have hs : i ∈ List.insertionSort descCreated
        (db.ideas.filter (fun x => decide (x.user_id = uid))) :=
      List.mem_of_mem_take hi
    rw [List.mem_insertionSort, List.mem_filter] at hs
    obtain ⟨hmem, hdec⟩ := hs
    simp at hdec
    exact ⟨hdec, hmem⟩
  · exact List.Pairwise.sublist (List.take_sublist _ _)
      (List.sorted_insertionSort descCreated _)
  · intro y hy hyu hnot x hx
    have hys : y ∈ List.insertionSort descCreated
        (db.ideas.filter (fun x => decide (x.user_id = uid))) := by
      rw [List.mem_insertionSort, List.mem_filter]
      simp [hy, hyu]
    have hsplit : y ∈ List.take 50 (List.insertionSort descCreated
          (db.ideas.filter (fun x => decide (x.user_id = uid)))) ++
        List.drop 50 (List.insertionSort descCreated
          (db.ideas.filter (fun x => decide (x.user_id = uid)))) := by
      rw [List.take_append_drop]
      exact hys
    have hdrop : y ∈ List.drop 50 (List.insertionSort descCreated
        (db.ideas.filter (fun x => decide (x.user_id = uid)))) := by
      rcases List.mem_append.mp hsplit with hin | hin
      · exact absurd hin hnot
      · exact hin
    exact (List.sorted_insertionSort descCreated _).rel_of_mem_take_of_mem_drop hx hdrop
  · exact scanSimilar_eq_find newContent _

/-- Witness for C5: on the concrete two-note database, the fetched
window contains the stored note and the theorem identifies it as the
user's note. -/
theorem C5_duplicate_scan_witness :
    (⟨2, 1, some "hello", "text", none, none, "direct", 600, 20, 0, false, "0", "0", none⟩ : Idea)
        ∈ fetchRecent dbTwoNotes 1 ∧
    ((⟨2, 1, some "hello", "text", none, none, "direct", 600, 20, 0, false, "0", "0", none⟩ : Idea).user_id = 1 ∧
      (⟨2, 1, some "hello", "text", none, none, "direct", 600, 20, 0, false, "0", "0", none⟩ : Idea)
        ∈ dbTwoNotes.ideas) :=
  ⟨by decide, (C5_duplicate_scan dbTwoNotes 1 "x").2.1 _ (by decide)⟩

/-- Witness for C10: at the concrete state dbAtLimit the text handler
refuses and deleting the stored note does not restore capacity. -/
theorem C10_free_limit_lifetime_witness :
    findUser dbAtLimit.users 1 = some ⟨1, 7, false, none, 50, none, 0⟩ ∧
    handle_text dbAtLimit 1 "new note" none 20 = (SaveOutcome.limitReached, dbAtLimit) ∧
    handle_text (delete_idea dbAtLimit 1 3 21) 1 "new note" none 22
      = (SaveOutcome.limitReached, delete_idea dbAtLimit 1 3 21) := by
  have h := C10_free_limit_lifetime dbAtLimit 1 ⟨1, 7, false, none, 50, none, 0⟩
    (by decide) (by decide) (by decide)
  exact ⟨by decide, h.1 "new note" none 20, h.2.2.2.2 1 3 21 "new note" none 22⟩

end IceBox
